import Mathlib

/-
Verification of the quantitative core of the quant-backtest monorepo:
Black-Scholes pricing (scalar and vectorized), implied-volatility solvers,
Greeks, options-strategy functions, the options backtest simulator, the
portfolio backtest engine, and the request-validation layer.

Real-valued (float) arithmetic is embedded as exact real arithmetic on ℝ.
The scipy normal CDF and PDF are external collaborators; pricing functions
take them as explicit function parameters (written N and npdf below).
Theorems that need analytic facts about the standard normal distribution
are instantiated at the concrete normCdf and normPdf defined below, for
which those facts (symmetry, bounds, the Gaussian inequality giving
nonnegativity of raw Black-Scholes values) are proved from the Gaussian
integral.  Python round(x, k) is embedded as rounding x·10^k to the
nearest integer.
-/

/-- Elementwise combination of three lists, the semantics of an elementwise
numpy computation over three equal-length arrays. -/
def zipWith3 {α β γ δ : Type} (f : α → β → γ → δ) : List α → List β → List γ → List δ
  | a :: as, b :: bs, c :: cs => f a b c :: zipWith3 f as bs cs
  | _, _, _ => []

/-- Python round(x, 2). -/
noncomputable def round2 (x : ℝ) : ℝ := (round (x * 100) : ℤ) / 100

/-- Python round(x, 4). -/
noncomputable def round4 (x : ℝ) : ℝ := (round (x * 10000) : ℤ) / 10000

/-- Python round(x, 6). -/
noncomputable def round6 (x : ℝ) : ℝ := (round (x * 1000000) : ℤ) / 1000000

/-- Option type literal "call" / "put". -/
inductive OptionType where
  | call
  | put
deriving DecidableEq

/-- Option pricing result (dataclass OptionPrice in black_scholes.py). -/
structure OptionPrice where
  price : ℝ
  intrinsic_value : ℝ
  time_value : ℝ

/-- Scalar Black-Scholes pricer, black_scholes_price in
core/pricing/black_scholes.py.  N is the normal CDF (scipy norm.cdf). -/
noncomputable def black_scholes_price (N : ℝ → ℝ) (S K T r sigma : ℝ)
    (option_type : OptionType) : OptionPrice :=
  if T ≤ 0 then
    let intrinsic : ℝ :=
      match option_type with
      | .call => max (S - K) 0
      | .put => max (K - S) 0
    ⟨intrinsic, intrinsic, 0⟩
  else if sigma ≤ 0 then
    let intrinsic : ℝ :=
      match option_type with
      | .call => max (S - K * Real.exp (-r * T)) 0
      | .put => max (K * Real.exp (-r * T) - S) 0
    ⟨intrinsic, intrinsic, 0⟩
  else
    let d1 : ℝ := (Real.log (S / K) + (r + 0.5 * sigma ^ 2) * T) / (sigma * Real.sqrt T)
    let d2 : ℝ := d1 - sigma * Real.sqrt T
    let price : ℝ :=
      match option_type with
      | .call => S * N d1 - K * Real.exp (-r * T) * N d2
      | .put => K * Real.exp (-r * T) * N (-d2) - S * N (-d1)
    let intrinsic : ℝ :=
      match option_type with
      | .call => max (S - K) 0
      | .put => max (K - S) 0
    ⟨max price 0, intrinsic, max (price - intrinsic) 0⟩

/-- One element of the vectorized Black-Scholes computation: the value the
numpy code of black_scholes_vectorized produces at one array position, with
all three branches computed and selected via the masks. -/
noncomputable def black_scholes_vectorized_elt (N : ℝ → ℝ) (K r : ℝ)
    (option_type : OptionType) (s t sig : ℝ) : ℝ :=
  let T_safe : ℝ := if t ≤ 0 ∨ sig ≤ 0 then 1 else t
  let sigma_safe : ℝ := if sig ≤ 0 then 1 else sig
  let sqrt_T : ℝ := Real.sqrt T_safe
  let d1 : ℝ := (Real.log (s / K) + (r + 0.5 * sigma_safe ^ 2) * T_safe) / (sigma_safe * sqrt_T)
  let d2 : ℝ := d1 - sigma_safe * sqrt_T
  let prices : ℝ :=
    match option_type with
    | .call => s * N d1 - K * Real.exp (-r * T_safe) * N d2
    | .put => K * Real.exp (-r * T_safe) * N (-d2) - s * N (-d1)
  let expired_prices : ℝ :=
    match option_type with
    | .call => max (s - K) 0
    | .put => max (K - s) 0
  let prices1 : ℝ := if t ≤ 0 then expired_prices else prices
  let zero_vol_prices : ℝ :=
    match option_type with
    | .call => max (s - K * Real.exp (-r * t)) 0
    | .put => max (K * Real.exp (-r * t) - s) 0
  let prices2 : ℝ := if sig ≤ 0 ∧ ¬ t ≤ 0 then zero_vol_prices else prices1
  max prices2 0

/-- Vectorized Black-Scholes pricer, black_scholes_vectorized in
core/pricing/black_scholes.py: arrays of S, T, sigma with scalar K and r. -/
noncomputable def black_scholes_vectorized (N : ℝ → ℝ) (S : List ℝ) (K : ℝ)
    (T : List ℝ) (r : ℝ) (sigma : List ℝ) (option_type : OptionType) : List ℝ :=
  zipWith3 (black_scholes_vectorized_elt N K r option_type) S T sigma

/-- The d1 term used inside the Newton-Raphson iteration of
implied_volatility_newton in core/pricing/implied_volatility.py. -/
noncomputable def newton_d1 (S K T r sigma : ℝ) : ℝ :=
  (Real.log (S / K) + (r + 0.5 * sigma ^ 2) * T) / (sigma * Real.sqrt T)

/-- The Black-Scholes value recomputed at each Newton-Raphson iteration
(the in-loop price of implied_volatility_newton, no branches, no floor). -/
noncomputable def newton_bs_price (N : ℝ → ℝ) (S K T r sigma : ℝ) :
    OptionType → ℝ
  | .call => S * N (newton_d1 S K T r sigma)
      - K * Real.exp (-r * T) * N (newton_d1 S K T r sigma - sigma * Real.sqrt T)
  | .put => K * Real.exp (-r * T) * N (-(newton_d1 S K T r sigma - sigma * Real.sqrt T))
      - S * N (-(newton_d1 S K T r sigma))

/-- Vega as computed inside the Newton-Raphson loop: S · pdf(d1) · sqrt(T),
where npdf is the scipy normal PDF. -/
noncomputable def newton_vega (npdf : ℝ → ℝ) (S K T r sigma : ℝ) : ℝ :=
  S * npdf (newton_d1 S K T r sigma) * Real.sqrt T

/-- One Newton-Raphson update followed by the clamp of sigma into (0, 10]:
sigma ≤ 0 is reset to 0.01 and sigma > 10 is capped at 10. -/
noncomputable def newton_update (sigma diff vega : ℝ) : ℝ :=
  let s : ℝ := sigma - diff / vega
  if s ≤ 0 then 0.01 else if 10 < s then 10 else s

/-- The Newton-Raphson iteration loop of implied_volatility_newton, with the
remaining iteration budget as fuel; exhausting the budget returns none. -/
noncomputable def newtonLoop (N npdf : ℝ → ℝ) (market_price S K T r : ℝ)
    (ty : OptionType) (tolerance : ℝ) : ℕ → ℝ → Option ℝ
  | 0, _ => none
  | n + 1, sigma =>
    if newton_vega npdf S K T r sigma < 1e-10 then none
    else if |newton_bs_price N S K T r sigma ty - market_price| < tolerance then some sigma
    else newtonLoop N npdf market_price S K T r ty tolerance n
      (newton_update sigma (newton_bs_price N S K T r sigma ty - market_price)
        (newton_vega npdf S K T r sigma))

/-- The no-arbitrage intrinsic-value floor checked by
implied_volatility_newton before iterating. -/
noncomputable def intrinsic_floor (S K T r : ℝ) : OptionType → ℝ
  | .call => max (S - K * Real.exp (-r * T)) 0
  | .put => max (K * Real.exp (-r * T) - S) 0

/-- implied_volatility_newton in core/pricing/implied_volatility.py. -/
noncomputable def implied_volatility_newton (N npdf : ℝ → ℝ)
    (market_price S K T r : ℝ) (ty : OptionType)
    (initial_guess tolerance : ℝ) (max_iterations : ℕ) : Option ℝ :=
  if T ≤ 0 then none
  else if market_price < intrinsic_floor S K T r ty then none
  else newtonLoop N npdf market_price S K T r ty tolerance max_iterations initial_guess

/-- The claim's enumeration of Newton-Raphson failure conditions, as a
predicate on the iteration sequence started from a given sigma with a given
iteration budget: vega falls below 1e-10 at some iterate, or the budget is
exhausted without |BS(sigma) - price| < tolerance ever holding. -/
def NewtonFails (N npdf : ℝ → ℝ) (market_price S K T r : ℝ)
    (ty : OptionType) (tolerance : ℝ) : ℕ → ℝ → Prop
  | 0, _ => True
  | n + 1, sigma =>
    newton_vega npdf S K T r sigma < 1e-10
    ∨ (¬ |newton_bs_price N S K T r sigma ty - market_price| < tolerance
        ∧ NewtonFails N npdf market_price S K T r ty tolerance n
            (newton_update sigma (newton_bs_price N S K T r sigma ty - market_price)
              (newton_vega npdf S K T r sigma)))

/-- The bisection loop of implied_volatility_bisection: bisect up to the
iteration budget; an exhausted budget returns the midpoint of the final
bracket (a value, never a failure). -/
noncomputable def bisectLoop (N : ℝ → ℝ) (market_price S K T r : ℝ)
    (ty : OptionType) (tolerance : ℝ) : ℕ → ℝ → ℝ → ℝ
  | 0, sigma_low, sigma_high => (sigma_low + sigma_high) / 2
  | n + 1, sigma_low, sigma_high =>
    let sigma_mid : ℝ := (sigma_low + sigma_high) / 2
    if |(black_scholes_price N S K T r sigma_mid ty).price - market_price| < tolerance then
      sigma_mid
    else if market_price < (black_scholes_price N S K T r sigma_mid ty).price then
      bisectLoop N market_price S K T r ty tolerance n sigma_low sigma_mid
    else
      bisectLoop N market_price S K T r ty tolerance n sigma_mid sigma_high

/-- implied_volatility_bisection in core/pricing/implied_volatility.py. -/
noncomputable def implied_volatility_bisection (N : ℝ → ℝ)
    (market_price S K T r : ℝ) (ty : OptionType)
    (tolerance : ℝ) (max_iterations : ℕ) : Option ℝ :=
  if T ≤ 0 then none
  else if market_price < (black_scholes_price N S K T r 0.001 ty).price
      ∨ (black_scholes_price N S K T r 5 ty).price < market_price then none
  else some (bisectLoop N market_price S K T r ty tolerance max_iterations 0.001 5)

/-- A Python float that may be the infinity sentinel float("inf") returned
by some strategy bound functions. -/
inductive PyFloat where
  | val (x : ℝ)
  | inf

/-- Position type: long or short (strategies/base.py). -/
inductive PositionType where
  | long
  | short
deriving DecidableEq

/-- A parsed strike-selection rule: ATM, OTM_n%, ITM_n%, or an absolute
numeric strike (the string forms parsed by _calculate_strikes). -/
inductive StrikeSel where
  | atm
  | otm (pct : ℝ)
  | itm (pct : ℝ)
  | absolute (value : ℝ)

/-- Single option leg definition (strategies/base.py). -/
structure OptionLeg where
  option_type : OptionType
  position_type : PositionType
  strike_selection : StrikeSel
  quantity : ℕ

/-- Stock position for covered strategies (strategies/base.py). -/
structure StockLeg where
  position_type : PositionType
  quantity : ℕ

/-- Strategy definition: option legs plus optional stock leg (the fields of
StrategyDefinition that the engine computes with). -/
structure StrategyDefinition where
  legs : List OptionLeg
  stock_leg : Option StockLeg

/-- LongCall.get_definition in strategies/single_leg.py: one long ATM call,
no stock leg. -/
def longCallDef : StrategyDefinition :=
  ⟨[⟨OptionType.call, PositionType.long, StrikeSel.atm, 1⟩], none⟩

/-- CoveredCall.get_max_profit in strategies/multi_leg.py. -/
def CoveredCall.get_max_profit (strikes premiums : List ℝ)
    (entry_stock_price : Option ℝ) : PyFloat :=
  match entry_stock_price with
  | none => .val (strikes.getD 0 0 * 0.05 + premiums.getD 0 0)
  | some e => .val (strikes.getD 0 0 - e + premiums.getD 0 0)

/-- CoveredCall.get_max_loss in strategies/multi_leg.py. -/
def CoveredCall.get_max_loss (strikes premiums : List ℝ)
    (entry_stock_price : Option ℝ) : PyFloat :=
  match entry_stock_price with
  | none => .inf
  | some e => .val (e - premiums.getD 0 0)

/-- CoveredCall.get_breakeven in strategies/multi_leg.py. -/
def CoveredCall.get_breakeven (strikes premiums : List ℝ)
    (entry_stock_price : Option ℝ) : List ℝ :=
  match entry_stock_price with
  | none => []
  | some e => [e - premiums.getD 0 0]

/-- ProtectivePut.get_max_profit in strategies/multi_leg.py. -/
def ProtectivePut.get_max_profit (strikes premiums : List ℝ)
    (entry_stock_price : Option ℝ) : PyFloat :=
  .inf

/-- ProtectivePut.get_max_loss in strategies/multi_leg.py. -/
def ProtectivePut.get_max_loss (strikes premiums : List ℝ)
    (entry_stock_price : Option ℝ) : PyFloat :=
  match entry_stock_price with
  | none => .val (premiums.getD 0 0)
  | some e => .val (e - strikes.getD 0 0 + premiums.getD 0 0)

/-- ProtectivePut.get_breakeven in strategies/multi_leg.py. -/
def ProtectivePut.get_breakeven (strikes premiums : List ℝ)
    (entry_stock_price : Option ℝ) : List ℝ :=
  match entry_stock_price with
  | none => []
  | some e => [e + premiums.getD 0 0]

/-- Collar.get_max_profit in strategies/multi_leg.py. -/
def Collar.get_max_profit (strikes premiums : List ℝ)
    (entry_stock_price : Option ℝ) : PyFloat :=
  let net_cost : ℝ := premiums.getD 0 0 - premiums.getD 1 0
  match entry_stock_price with
  | none => .val (strikes.getD 1 0 - strikes.getD 1 0 * 0.95 - net_cost)
  | some e => .val (strikes.getD 1 0 - e - net_cost)

/-- Collar.get_max_loss in strategies/multi_leg.py. -/
def Collar.get_max_loss (strikes premiums : List ℝ)
    (entry_stock_price : Option ℝ) : PyFloat :=
  let net_cost : ℝ := premiums.getD 0 0 - premiums.getD 1 0
  match entry_stock_price with
  | none => .val (strikes.getD 0 0 * 1.05 - strikes.getD 0 0 + net_cost)
  | some e => .val (e - strikes.getD 0 0 + net_cost)

/-- Collar.get_breakeven in strategies/multi_leg.py. -/
def Collar.get_breakeven (strikes premiums : List ℝ)
    (entry_stock_price : Option ℝ) : List ℝ :=
  match entry_stock_price with
  | none => []
  | some e => [e + (premiums.getD 0 0 - premiums.getD 1 0)]

/-- Volatility model selector of OptionsBacktestConfig. -/
inductive VolatilityModel where
  | historical
  | fixed
deriving DecidableEq

/-- Configuration for an options backtest (OptionsBacktestConfig in
core/options_engine.py); the per-leg strike-selection overrides are a map
from leg index to an optional parsed rule. -/
structure OptionsBacktestConfig where
  initial_capital : ℝ
  days_to_expiration : ℕ
  strike_selection : ℕ → Option StrikeSel
  position_size : ℕ
  volatility_model : VolatilityModel
  fixed_volatility : Option ℝ
  risk_free_rate : ℝ

/-- Forward fill over an optional-valued series (pandas ffill; none is NaN). -/
def ffillVol (last : Option ℝ) : List (Option ℝ) → List (Option ℝ)
  | [] => []
  | none :: rest => last :: ffillVol last rest
  | some v :: rest => some v :: ffillVol (some v) rest

/-- Backward fill over an optional-valued series (pandas bfill). -/
def bfillVol (l : List (Option ℝ)) : List (Option ℝ) :=
  (ffillVol none l.reverse).reverse

/-- The volatility preparation of OptionsBacktestEngine.run: forward fill,
backward fill, fall back to a flat 0.3 when the whole series is undefined,
then override with the fixed volatility when that model is configured. -/
def prepare_volatility (cfg : OptionsBacktestConfig) (vol : List (Option ℝ)) : List ℝ :=
  let filled := bfillVol (ffillVol none vol)
  let base : List ℝ :=
    if filled.all (fun v => v.isNone) then vol.map (fun _ => 0.3)
    else filled.map (fun v => v.getD 0.3)
  match cfg.volatility_model, cfg.fixed_volatility with
  | .fixed, some f => base.map (fun _ => f)
  | _, _ => base

/-- OptionsBacktestEngine._calculate_strikes: resolve each leg's
strike-selection rule against the entry spot price, rounded to 2 decimals. -/
noncomputable def calculate_strikes (cfg : OptionsBacktestConfig)
    (spot_price : ℝ) (legs : List OptionLeg) : List ℝ :=
  legs.enum.map (fun il =>
    let leg := il.2
    let strike : ℝ :=
      match (cfg.strike_selection il.1).getD leg.strike_selection with
      | .atm => spot_price
      | .otm pct =>
        match leg.option_type with
        | .call => spot_price * (1 + pct / 100)
        | .put => spot_price * (1 - pct / 100)
      | .itm pct =>
        match leg.option_type with
        | .call => spot_price * (1 - pct / 100)
        | .put => spot_price * (1 + pct / 100)
      | .absolute v => v
    round2 strike)

/-- OptionsBacktestEngine._calculate_net_premium: negative = debit,
positive = credit. -/
noncomputable def calculate_net_premium (legs : List OptionLeg) (premiums : List ℝ) : ℝ :=
  ((legs.zip premiums).map (fun lp =>
    match lp.1.position_type with
    | .long => -(lp.2 * (lp.1.quantity : ℝ))
    | .short => lp.2 * (lp.1.quantity : ℝ))).sum

/-- Entry premium computation of OptionsBacktestEngine.run: each leg priced
by the vectorized Black-Scholes on singleton arrays at
T = days_to_expiration / 365 with the entry-day volatility. -/
noncomputable def entry_premiums (N : ℝ → ℝ) (cfg : OptionsBacktestConfig)
    (entry_price : ℝ) (strikes : List ℝ) (entry_vol : ℝ)
    (legs : List OptionLeg) : List ℝ :=
  (legs.zip strikes).map (fun lk =>
    (black_scholes_vectorized N [entry_price] lk.2
      [(cfg.days_to_expiration : ℝ) / 365] cfg.risk_free_rate [entry_vol]
      lk.1.option_type).headD 0)

/-- OptionsBacktestEngine._calculate_current_premiums: Black-Scholes value
while T > 0, intrinsic value at expiration. -/
noncomputable def calculate_current_premiums (N : ℝ → ℝ)
    (cfg : OptionsBacktestConfig) (current_price : ℝ) (strikes : List ℝ)
    (T : ℝ) (current_vol : ℝ) (legs : List OptionLeg) : List ℝ :=
  (legs.zip strikes).map (fun lk =>
    if 0 < T then
      (black_scholes_vectorized N [current_price] lk.2 [T] cfg.risk_free_rate
        [current_vol] lk.1.option_type).headD 0
    else
      match lk.1.option_type with
      | .call => max (current_price - lk.2) 0
      | .put => max (lk.2 - current_price) 0)

/-- OptionsBacktestEngine._calculate_option_pnl: current minus entry premium
per leg, sign-adjusted for long/short and scaled by quantity. -/
noncomputable def calculate_option_pnl (legs : List OptionLeg)
    (entry current : List ℝ) : ℝ :=
  ((legs.zip (entry.zip current)).map (fun lec =>
    match lec.1.position_type with
    | .long => (lec.2.2 - lec.2.1) * (lec.1.quantity : ℝ)
    | .short => -((lec.2.2 - lec.2.1) * (lec.1.quantity : ℝ)))).sum

/-- The stock-leg P&L term of the daily loop of OptionsBacktestEngine.run. -/
noncomputable def stock_leg_pnl (sdef : StrategyDefinition)
    (current_price entry_price : ℝ) : ℝ :=
  match sdef.stock_leg with
  | none => 0
  | some sl =>
    match sl.position_type with
    | .short => -((current_price - entry_price) * (sl.quantity : ℝ))
    | .long => (current_price - entry_price) * (sl.quantity : ℝ)

/-- One entry of the daily P&L series recorded by the simulator (the fields
of the daily_pnl dicts of OptionsBacktestEngine.run, date omitted). -/
structure DailyPnlRecord where
  spot_price : ℝ
  position_value : ℝ
  daily_pnl : ℝ
  dte : ℕ

/-- Trade log action: "OPEN" or "EXPIRE". -/
inductive TradeAction where
  | OPEN
  | EXPIRE
deriving DecidableEq

/-- One entry of the trade log (the OPEN/EXPIRE dicts of
OptionsBacktestEngine.run; amount is net_premium for OPEN and final_pnl for
EXPIRE, date omitted). -/
structure TradeRecord where
  action : TradeAction
  strikes : List ℝ
  premiums : List ℝ
  amount : ℝ
  spot_price : ℝ

/-- The daily mark-to-market loop of OptionsBacktestEngine.run over the
remaining (price, volatility) pairs, starting at a given day index: records
one DailyPnlRecord per day, and on the day remaining DTE reaches 0 records
the EXPIRE trade and terminates. -/
noncomputable def simulate_days (N : ℝ → ℝ) (cfg : OptionsBacktestConfig)
    (sdef : StrategyDefinition) (strikes entry_prem : List ℝ)
    (entry_price : ℝ) :
    ℕ → List (ℝ × ℝ) → List DailyPnlRecord × Option TradeRecord
  | _, [] => ([], none)
  | day_idx, (price, vol) :: rest =>
    let dte : ℕ := cfg.days_to_expiration - day_idx
    let T : ℝ := (dte : ℝ) / 365
    let current_prem := calculate_current_premiums N cfg price strikes T vol sdef.legs
    let option_pnl := calculate_option_pnl sdef.legs entry_prem current_prem
    let total_pnl : ℝ :=
      (option_pnl * 100 + stock_leg_pnl sdef price entry_price) * (cfg.position_size : ℝ)
    let rec1 : DailyPnlRecord :=
      ⟨round2 price, round2 (cfg.initial_capital + total_pnl), round2 total_pnl, dte⟩
    if dte = 0 then
      ([rec1], some ⟨.EXPIRE, strikes.map round2, current_prem.map round4,
        round2 total_pnl, round2 price⟩)
    else
      let rest_result :=
        simulate_days N cfg sdef strikes entry_prem entry_price (day_idx + 1) rest
      (rec1 :: rest_result.1, rest_result.2)

/-- The parts of OptionsBacktestResult the claims are about: the daily P&L
series and the trade log. -/
structure OptionsRunResult where
  daily_pnl : List DailyPnlRecord
  trades : List TradeRecord

/-- The strike list resolved at entry by OptionsBacktestEngine.run. -/
noncomputable def run_strikes (cfg : OptionsBacktestConfig)
    (sdef : StrategyDefinition) (prices : List ℝ) : List ℝ :=
  calculate_strikes cfg (prices.getD 0 0) sdef.legs

/-- The entry premiums computed by OptionsBacktestEngine.run at day 0. -/
noncomputable def run_entry_premiums (N : ℝ → ℝ) (cfg : OptionsBacktestConfig)
    (sdef : StrategyDefinition) (prices : List ℝ)
    (volatility_data : List (Option ℝ)) : List ℝ :=
  entry_premiums N cfg (prices.getD 0 0) (run_strikes cfg sdef prices)
    ((prepare_volatility cfg volatility_data).getD 0 0) sdef.legs

/-- The daily simulation of OptionsBacktestEngine.run, from day index 0 over
the zipped price/volatility series. -/
noncomputable def run_sim (N : ℝ → ℝ) (cfg : OptionsBacktestConfig)
    (sdef : StrategyDefinition) (prices : List ℝ)
    (volatility_data : List (Option ℝ)) :
    List DailyPnlRecord × Option TradeRecord :=
  simulate_days N cfg sdef (run_strikes cfg sdef prices)
    (run_entry_premiums N cfg sdef prices volatility_data) (prices.getD 0 0)
    0 (prices.zip (prepare_volatility cfg volatility_data))

/-- OptionsBacktestEngine.run: volatility preparation, entry at day 0
(strike resolution, entry premiums, OPEN trade), then the daily loop; the
EXPIRE trade, when the loop produces one, is appended to the trade log. -/
noncomputable def options_backtest_run (N : ℝ → ℝ)
    (cfg : OptionsBacktestConfig) (sdef : StrategyDefinition)
    (prices : List ℝ) (volatility_data : List (Option ℝ)) : OptionsRunResult :=
  ⟨(run_sim N cfg sdef prices volatility_data).1,
    ⟨.OPEN, (run_strikes cfg sdef prices).map round2,
      (run_entry_premiums N cfg sdef prices volatility_data).map round4,
      round2 (calculate_net_premium sdef.legs
        (run_entry_premiums N cfg sdef prices volatility_data)
        * 100 * (cfg.position_size : ℝ)),
      round2 (prices.getD 0 0)⟩
    :: (match (run_sim N cfg sdef prices volatility_data).2 with
        | some t => [t]
        | none => [])⟩

/-- A sample options backtest configuration: capital 100000, DTE 5, no
strike overrides, one contract, historical volatility, rate 0.045. -/
def sampleConfig5 : OptionsBacktestConfig :=
  ⟨100000, 5, fun _ => none, 1, .historical, none, 0.045⟩

/-- The sample configuration with a sub-cent initial capital of 100000.001. -/
def sampleConfig5c : OptionsBacktestConfig :=
  ⟨100000.001, 5, fun _ => none, 1, .historical, none, 0.045⟩

/-- pandas pct_change tail: simple percentage returns against the previous
observation. -/
noncomputable def pct_change_tail (prev : ℝ) : List ℝ → List ℝ
  | [] => []
  | x :: xs => (x / prev - 1) :: pct_change_tail x xs

/-- pct_change().fillna(0) of BacktestEngine.run: month-over-month simple
returns with the first month's undefined return replaced by 0. -/
noncomputable def pct_change_f0 : List ℝ → List ℝ
  | [] => []
  | p :: rest => 0 :: pct_change_tail p rest

/-- The rowwise weighted sum (monthly_returns * weights).sum(axis=1) of
BacktestEngine.run over aligned per-asset monthly return columns. -/
noncomputable def portfolio_returns (monthly_returns : List (List ℝ))
    (weights : List ℝ) : List ℝ :=
  (List.range (monthly_returns.headD []).length).map (fun j =>
    ((monthly_returns.zip weights).map (fun aw => aw.1.getD j 0 * aw.2)).sum)

/-- (1 + returns).cumprod() * initial_capital of BacktestEngine.run. -/
noncomputable def cumprod_scaled (capital : ℝ) : List ℝ → List ℝ
  | [] => []
  | rr :: rs => capital * (1 + rr) :: cumprod_scaled (capital * (1 + rr)) rs

/-- The equity-curve computation of BacktestEngine.run (core/engine.py) from
monthly prices onward: per-asset monthly returns with the first month fixed
at 0, weighted portfolio returns, then the compounded value series. -/
noncomputable def backtest_equity_curve (monthly_prices : List (List ℝ))
    (weights : List ℝ) (initial_capital : ℝ) : List ℝ :=
  cumprod_scaled initial_capital
    (portfolio_returns (monthly_prices.map pct_change_f0) weights)

/-- The validation errors raised by run_backtest in routers/backtest.py
before any computation starts. -/
inductive BacktestError where
  | count_mismatch
  | weight_sum
deriving DecidableEq

/-- A portfolio backtest request: tickers (opaque identifiers) and weights. -/
structure BacktestRequest where
  tickers : List ℕ
  weights : List ℝ

/-- The validation prefix of the run_backtest endpoint
(routers/backtest.py): reject on ticker/weight count mismatch, then reject
unless the weight sum lies in [0.99, 1.01]; only then run the backtest
computation, modelled as an opaque continuation. -/
noncomputable def run_backtest_validated {α : Type} (req : BacktestRequest)
    (compute : BacktestRequest → α) : Except BacktestError α :=
  if req.tickers.length ≠ req.weights.length then .error .count_mismatch
  else if ¬ (0.99 ≤ req.weights.sum ∧ req.weights.sum ≤ 1.01) then .error .weight_sum
  else .ok (compute req)

/-- The standard normal PDF, scipy norm.pdf. -/
noncomputable def normPdf (x : ℝ) : ℝ :=
  Real.exp (-x ^ 2 / 2) / Real.sqrt (2 * Real.pi)

/-- The standard normal CDF, scipy norm.cdf. -/
noncomputable def normCdf (x : ℝ) : ℝ :=
  (∫ t in Set.Iic x, Real.exp (-t ^ 2 / 2)) / Real.sqrt (2 * Real.pi)

/-- All Greeks for an option (dataclass Greeks in core/pricing/greeks.py). -/
structure Greeks where
  delta : ℝ
  gamma : ℝ
  theta : ℝ
  vega : ℝ
  rho : ℝ

/-- calculate_greeks in core/pricing/greeks.py.  N is the scipy normal CDF,
npdf the scipy normal PDF; the normal-branch results are rounded to six
decimals as in the code. -/
noncomputable def calculate_greeks (N npdf : ℝ → ℝ) (S K T r sigma : ℝ)
    (option_type : OptionType) : Greeks :=
  if T ≤ 0 then
    let delta : ℝ :=
      match option_type with
      | .call => if K < S then 1 else if S = K then 0.5 else 0
      | .put => if S < K then -1 else if S = K then -0.5 else 0
    ⟨delta, 0, 0, 0, 0⟩
  else if sigma ≤ 0 then
    let delta : ℝ :=
      match option_type with
      | .call => if K * Real.exp (-r * T) < S then 1 else 0
      | .put => if S < K * Real.exp (-r * T) then -1 else 0
    ⟨delta, 0, 0, 0, 0⟩
  else
    let sqrt_T : ℝ := Real.sqrt T
    let d1 : ℝ := (Real.log (S / K) + (r + 0.5 * sigma ^ 2) * T) / (sigma * sqrt_T)
    let d2 : ℝ := d1 - sigma * sqrt_T
    let gamma : ℝ := npdf d1 / (S * sigma * sqrt_T)
    let vega : ℝ := S * npdf d1 * sqrt_T / 100
    match option_type with
    | .call =>
      ⟨round6 (N d1), round6 gamma,
        round6 ((-(S * npdf d1 * sigma) / (2 * sqrt_T)
          - r * K * Real.exp (-r * T) * N d2) / 365),
        round6 vega,
        round6 (K * T * Real.exp (-r * T) * N d2 / 100)⟩
    | .put =>
      ⟨round6 (N d1 - 1), round6 gamma,
        round6 ((-(S * npdf d1 * sigma) / (2 * sqrt_T)
          + r * K * Real.exp (-r * T) * N (-d2)) / 365),
        round6 vega,
        round6 (-(K * T * Real.exp (-r * T) * N (-d2)) / 100)⟩

theorem zipWith3_congr {α β γ δ : Type} (f g : α → β → γ → δ)
    (h : ∀ a b c, f a b c = g a b c) :
    ∀ (as : List α) (bs : List β) (cs : List γ),
      zipWith3 f as bs cs = zipWith3 g as bs cs := by
  intro as
  induction as with
  | nil => intro bs cs; cases bs <;> cases cs <;> rfl
  | cons a as ih =>
    intro bs cs
    cases bs with
    | nil => rfl
    | cons b bs =>
      cases cs with
      | nil => rfl
      | cons c cs => simp only [zipWith3, h, ih]

/-- Elementwise agreement of the vectorized and the scalar pricer: the
per-element value of the masked computation equals the price field of the
scalar three-way-branching computation, for any CDF function N. -/
theorem black_scholes_vectorized_elt_eq_scalar (N : ℝ → ℝ) (K r : ℝ)
    (ty : OptionType) (s t sig : ℝ) :
    black_scholes_vectorized_elt N K r ty s t sig =
      (black_scholes_price N s K t r sig ty).price := by
  unfold black_scholes_vectorized_elt black_scholes_price
  by_cases ht : t ≤ 0
  · by_cases hsig : sig ≤ 0 <;>
      cases ty <;>
      simp [ht, hsig, max_max_max_comm, max_self]
  · by_cases hsig : sig ≤ 0
    · cases ty <;> simp [ht, hsig, max_max_max_comm, max_self]
    · cases ty <;> simp [ht, hsig]

/-- Claim C1: every element of the vectorized Black-Scholes result equals the
price field of the scalar Black-Scholes pricer applied to that element's
(S_i, K, T_i, r, sigma_i): the masked, compute-all-branches vectorized path
refines the scalar three-way branch (expired, then zero-vol, then closed
form) with the same precedence and the same final floor at 0. -/
theorem vectorized_black_scholes_refines_scalar (N : ℝ → ℝ) (S : List ℝ)
    (K : ℝ) (T : List ℝ) (r : ℝ) (sigma : List ℝ) (ty : OptionType) :
    black_scholes_vectorized N S K T r sigma ty =
      zipWith3 (fun s t sig => (black_scholes_price N s K t r sig ty).price)
        S T sigma := by
  unfold black_scholes_vectorized
  exact zipWith3_congr _ _
    (fun s t sig => black_scholes_vectorized_elt_eq_scalar N K r ty s t sig) S T sigma

theorem zipWith3_getD {α β γ δ : Type} (f : α → β → γ → δ) :
    ∀ (as : List α) (bs : List β) (cs : List γ) (i : ℕ),
      i < as.length → i < bs.length → i < cs.length →
      ∀ (d : δ) (da : α) (db : β) (dc : γ),
        (zipWith3 f as bs cs).getD i d = f (as.getD i da) (bs.getD i db) (cs.getD i dc) := by
  intro as
  induction as with
  | nil => intro bs cs i ha; simp at ha
  | cons a as ih =>
    intro bs cs i ha hb hc d da db dc
    cases bs with
    | nil => simp at hb
    | cons b bs =>
      cases cs with
      | nil => simp at hc
      | cons c cs =>
        cases i with
        | zero => rfl
        | succ j =>
          simp only [zipWith3, List.getD_cons_succ]
          exact ih bs cs j (by simpa using ha) (by simpa using hb) (by simpa using hc) d da db dc

theorem bs_d1_d2_form (S K T r sigma : ℝ) (hT : 0 < T) (hsig : 0 < sigma) :
    (Real.log (S / K) + (r + 0.5 * sigma ^ 2) * T) / (sigma * Real.sqrt T)
        = (Real.log (S / K) + r * T) / (sigma * Real.sqrt T) + sigma * Real.sqrt T / 2
      ∧ (Real.log (S / K) + (r + 0.5 * sigma ^ 2) * T) / (sigma * Real.sqrt T)
          - sigma * Real.sqrt T
        = (Real.log (S / K) + r * T) / (sigma * Real.sqrt T) - sigma * Real.sqrt T / 2 := by
  have hs : (0 : ℝ) < sigma * Real.sqrt T :=
    mul_pos hsig (Real.sqrt_pos.mpr hT)
  have hne : sigma * Real.sqrt T ≠ 0 := ne_of_gt hs
  have hsq : sigma ^ 2 * T = (sigma * Real.sqrt T) ^ 2 := by
    rw [mul_pow, Real.sq_sqrt (le_of_lt hT)]
  have key : 0.5 * sigma ^ 2 * T / (sigma * Real.sqrt T) = sigma * Real.sqrt T / 2 := by
    rw [mul_assoc, hsq]
    field_simp
    ring
  have hnum : Real.log (S / K) + (r + 0.5 * sigma ^ 2) * T
      = (Real.log (S / K) + r * T) + 0.5 * sigma ^ 2 * T := by ring
  constructor
  · rw [hnum, add_div, key]
  · rw [hnum, add_div, key]
    ring

theorem bs_exp_cancel (S K T r : ℝ) (hS : 0 < S) (hK : 0 < K) :
    K * Real.exp (-r * T) * Real.exp (Real.log (S / K) + r * T) = S := by
  rw [Real.exp_add, Real.exp_log (div_pos hS hK)]
  rw [neg_mul, Real.exp_neg]
  have h1 : Real.exp (r * T) ≠ 0 := Real.exp_ne_zero _
  field_simp
  ring

/-- The raw (unfloored) Black-Scholes call value is nonnegative and the raw
put value is nonnegative, given the Gaussian inequality for the CDF. -/
theorem bs_raw_nonneg (N : ℝ → ℝ)
    (hgauss : ∀ m s : ℝ, 0 < s → N (m / s - s / 2) ≤ Real.exp m * N (m / s + s / 2))
    (S K T r sigma : ℝ) (hS : 0 < S) (hK : 0 < K) (hT : 0 < T) (hsig : 0 < sigma) :
    K * Real.exp (-r * T)
        * N ((Real.log (S / K) + (r + 0.5 * sigma ^ 2) * T) / (sigma * Real.sqrt T)
              - sigma * Real.sqrt T)
      ≤ S * N ((Real.log (S / K) + (r + 0.5 * sigma ^ 2) * T) / (sigma * Real.sqrt T))
    ∧ S * N (-((Real.log (S / K) + (r + 0.5 * sigma ^ 2) * T) / (sigma * Real.sqrt T)))
      ≤ K * Real.exp (-r * T)
        * N (-((Real.log (S / K) + (r + 0.5 * sigma ^ 2) * T) / (sigma * Real.sqrt T)
                - sigma * Real.sqrt T)) := by
  obtain ⟨hd1, hd2⟩ := bs_d1_d2_form S K T r sigma hT hsig
  set s : ℝ := sigma * Real.sqrt T with hs_def
  have hs : 0 < s := mul_pos hsig (Real.sqrt_pos.mpr hT)
  set m : ℝ := Real.log (S / K) + r * T with hm_def
  have hdisc : 0 < K * Real.exp (-r * T) :=
    mul_pos hK (Real.exp_pos _)
  have hcancel : K * Real.exp (-r * T) * Real.exp m = S := bs_exp_cancel S K T r hS hK
  rw [hd2, hd1]
  constructor
  · have h := hgauss m s hs
    calc K * Real.exp (-r * T) * N (m / s - s / 2)
        ≤ K * Real.exp (-r * T) * (Real.exp m * N (m / s + s / 2)) :=
          mul_le_mul_of_nonneg_left h (le_of_lt hdisc)
      _ = K * Real.exp (-r * T) * Real.exp m * N (m / s + s / 2) := by ring
      _ = S * N (m / s + s / 2) := by rw [hcancel]
  · have h := hgauss (-m) s hs
    have hneg1 : -m / s - s / 2 = -(m / s + s / 2) := by ring
    have hneg2 : -m / s + s / 2 = -(m / s - s / 2) := by ring
    rw [hneg1, hneg2] at h
    have hS' : S * N (-(m / s + s / 2)) ≤ S * (Real.exp (-m) * N (-(m / s - s / 2))) :=
      mul_le_mul_of_nonneg_left h (le_of_lt hS)
    have hcancel2 : S * Real.exp (-m) = K * Real.exp (-r * T) := by
      rw [← hcancel]
      rw [Real.exp_neg]
      have h1 : Real.exp m ≠ 0 := Real.exp_ne_zero _
      field_simp
    calc S * N (-(m / s + s / 2))
        ≤ S * (Real.exp (-m) * N (-(m / s - s / 2))) := hS'
      _ = S * Real.exp (-m) * N (-(m / s - s / 2)) := by ring
      _ = K * Real.exp (-r * T) * N (-(m / s - s / 2)) := by rw [hcancel2]

/-- Put-call parity for the Pricing Kernel over any CDF function satisfying
symmetry around 0 and the Gaussian inequality that makes the raw
Black-Scholes values nonnegative. -/
theorem put_call_parity_of_cdf (N : ℝ → ℝ)
    (hsym : ∀ x, N x + N (-x) = 1)
    (hgauss : ∀ m s : ℝ, 0 < s → N (m / s - s / 2) ≤ Real.exp m * N (m / s + s / 2))
    (S K T r sigma : ℝ) (hS : 0 < S) (hK : 0 < K) (hT : 0 < T) (hsig : 0 < sigma) :
    (black_scholes_price N S K T r sigma .call).price
        - (black_scholes_price N S K T r sigma .put).price
      = S - K * Real.exp (-r * T)
    ∧ ∀ (Ss Ts sigs : List ℝ) (i : ℕ),
        i < Ss.length → i < Ts.length → i < sigs.length →
        Ss.getD i 0 = S → Ts.getD i 0 = T → sigs.getD i 0 = sigma →
        (black_scholes_vectorized N Ss K Ts r sigs .call).getD i 0
            - (black_scholes_vectorized N Ss K Ts r sigs .put).getD i 0
          = S - K * Real.exp (-r * T) := by
  have hT' : ¬ T ≤ 0 := not_le.mpr hT
  have hsig' : ¬ sigma ≤ 0 := not_le.mpr hsig
  obtain ⟨hcall, hput⟩ := bs_raw_nonneg N hgauss S K T r sigma hS hK hT hsig
  have hscalar : (black_scholes_price N S K T r sigma .call).price
      - (black_scholes_price N S K T r sigma .put).price
      = S - K * Real.exp (-r * T) := by
    simp only [black_scholes_price, if_neg hT', if_neg hsig']
    set d1 : ℝ := (Real.log (S / K) + (r + 0.5 * sigma ^ 2) * T) / (sigma * Real.sqrt T)
      with hd1_def
    set d2 : ℝ := d1 - sigma * Real.sqrt T with hd2_def
    have hcnn : 0 ≤ S * N d1 - K * Real.exp (-r * T) * N d2 := by linarith [hcall]
    have hpnn : 0 ≤ K * Real.exp (-r * T) * N (-d2) - S * N (-d1) := by linarith [hput]
    rw [max_eq_left hcnn, max_eq_left hpnn]
    linear_combination S * hsym d1 - (K * Real.exp (-r * T)) * hsym d2
  refine ⟨hscalar, ?_⟩
  intro Ss Ts sigs i h1 h2 h3 hSv hTv hsv
  have hc : (black_scholes_vectorized N Ss K Ts r sigs .call).getD i 0
      = (black_scholes_price N S K T r sigma .call).price := by
    unfold black_scholes_vectorized
    rw [zipWith3_getD _ Ss Ts sigs i h1 h2 h3 0 0 0 0]
    rw [black_scholes_vectorized_elt_eq_scalar, hSv, hTv, hsv]
  have hp : (black_scholes_vectorized N Ss K Ts r sigs .put).getD i 0
      = (black_scholes_price N S K T r sigma .put).price := by
    unfold black_scholes_vectorized
    rw [zipWith3_getD _ Ss Ts sigs i h1 h2 h3 0 0 0 0]
    rw [black_scholes_vectorized_elt_eq_scalar, hSv, hTv, hsv]
  rw [hc, hp]
  exact hscalar

theorem newtonLoop_none_iff (N npdf : ℝ → ℝ) (market_price S K T r : ℝ)
    (ty : OptionType) (tolerance : ℝ) :
    ∀ (n : ℕ) (sigma : ℝ),
      newtonLoop N npdf market_price S K T r ty tolerance n sigma = none ↔
        NewtonFails N npdf market_price S K T r ty tolerance n sigma := by
  intro n
  induction n with
  | zero => intro sigma; simp [newtonLoop, NewtonFails]
  | succ k ih =>
    intro sigma
    by_cases hv : newton_vega npdf S K T r sigma < 1e-10
    · simp [newtonLoop, NewtonFails, hv]
    · by_cases hd : |newton_bs_price N S K T r sigma ty - market_price| < tolerance
      · simp [newtonLoop, NewtonFails, hv, hd]
      · simp only [newtonLoop, NewtonFails, if_neg hv, if_neg hd]
        rw [ih]
        tauto

theorem newton_update_mem (sigma diff vega : ℝ) :
    0 < newton_update sigma diff vega ∧ newton_update sigma diff vega ≤ 10 := by
  simp only [newton_update]
  split_ifs with h1 h2
  · constructor <;> norm_num
  · constructor <;> norm_num
  · push_neg at h1 h2
    constructor <;> linarith

theorem newtonLoop_some (N npdf : ℝ → ℝ) (market_price S K T r : ℝ)
    (ty : OptionType) (tolerance : ℝ) :
    ∀ (n : ℕ) (sigma v : ℝ), 0 < sigma → sigma ≤ 10 →
      newtonLoop N npdf market_price S K T r ty tolerance n sigma = some v →
      |newton_bs_price N S K T r v ty - market_price| < tolerance ∧ 0 < v ∧ v ≤ 10 := by
  intro n
  induction n with
  | zero => intro sigma v _ _ h; simp [newtonLoop] at h
  | succ k ih =>
    intro sigma v h0 h10 h
    by_cases hv : newton_vega npdf S K T r sigma < 1e-10
    · simp [newtonLoop, hv] at h
    · by_cases hd : |newton_bs_price N S K T r sigma ty - market_price| < tolerance
      · simp only [newtonLoop, if_neg hv, if_pos hd, Option.some.injEq] at h
        exact h ▸ ⟨hd, h0, h10⟩
      · simp only [newtonLoop, if_neg hv, if_neg hd] at h
        obtain ⟨hu0, hu10⟩ := newton_update_mem sigma
          (newton_bs_price N S K T r sigma ty - market_price) (newton_vega npdf S K T r sigma)
        exact ih _ v hu0 hu10 h

theorem newton_vega_zero_of_T_nonpos (npdf : ℝ → ℝ) (S K T r sigma : ℝ)
    (hT : T ≤ 0) : newton_vega npdf S K T r sigma = 0 := by
  unfold newton_vega
  rw [show Real.sqrt T = 0 from Real.sqrt_eq_zero'.mpr hT, mul_zero]

theorem newtonFails_of_T_nonpos (N npdf : ℝ → ℝ) (market_price S K T r : ℝ)
    (ty : OptionType) (tolerance : ℝ) (hT : T ≤ 0) :
    ∀ (n : ℕ) (sigma : ℝ),
      NewtonFails N npdf market_price S K T r ty tolerance n sigma := by
  intro n sigma
  cases n with
  | zero => trivial
  | succ k =>
    left
    rw [newton_vega_zero_of_T_nonpos npdf S K T r sigma hT]
    norm_num

/-- Claim C3: the Newton-Raphson implied-volatility solver returns none
exactly when the market price is below the no-arbitrage intrinsic-value
floor or the iteration sequence fails (vega below 1e-10 at some iterate, or
the iteration budget exhausted without meeting the tolerance); any returned
sigma satisfies |BS(sigma) - market_price| < tolerance and lies in the clamp
interval (0, 10]. -/
theorem newton_solver_characterization (N npdf : ℝ → ℝ)
    (market_price S K T r : ℝ) (ty : OptionType)
    (initial_guess tolerance : ℝ) (max_iterations : ℕ)
    (hg0 : 0 < initial_guess) (hg10 : initial_guess ≤ 10) :
    (implied_volatility_newton N npdf market_price S K T r ty
          initial_guess tolerance max_iterations = none ↔
        market_price < intrinsic_floor S K T r ty
          ∨ NewtonFails N npdf market_price S K T r ty tolerance
              max_iterations initial_guess)
    ∧ ∀ v, implied_volatility_newton N npdf market_price S K T r ty
          initial_guess tolerance max_iterations = some v →
        |newton_bs_price N S K T r v ty - market_price| < tolerance
          ∧ 0 < v ∧ v ≤ 10 := by
  unfold implied_volatility_newton
  by_cases hT : T ≤ 0
  · simp only [if_pos hT]
    constructor
    · constructor
      · intro _
        exact Or.inr (newtonFails_of_T_nonpos N npdf market_price S K T r ty
          tolerance hT max_iterations initial_guess)
      · intro _; trivial
    · intro v hv; exact absurd hv (by simp)
  · simp only [if_neg hT]
    by_cases hint : market_price < intrinsic_floor S K T r ty
    · simp only [if_pos hint]
      constructor
      · constructor
        · intro _; exact Or.inl hint
        · intro _; trivial
      · intro v hv; exact absurd hv (by simp)
    · simp only [if_neg hint]
      constructor
      · rw [newtonLoop_none_iff]
        constructor
        · intro h; exact Or.inr h
        · intro h
          cases h with
          | inl h => exact absurd h hint
          | inr h => exact h
      · intro v hv
        exact newtonLoop_some N npdf market_price S K T r ty tolerance
          max_iterations initial_guess v hg0 hg10 hv

/-- Witness for the Newton-Raphson characterization at the defaults
initial_guess = 0.3, tolerance = 1e-6, max_iterations = 100. -/
theorem newton_solver_characterization_witness :
    implied_volatility_newton normCdf normPdf 1 100 100 1 0 .call
          0.3 1e-6 100 = none ↔
      (1 : ℝ) < intrinsic_floor 100 100 1 0 .call
        ∨ NewtonFails normCdf normPdf 1 100 100 1 0 .call 1e-6 100 0.3 :=
  (newton_solver_characterization normCdf normPdf 1 100 100 1 0 .call
    0.3 1e-6 100 (by norm_num) (by norm_num)).1

theorem bisectLoop_mem (N : ℝ → ℝ) (market_price S K T r : ℝ)
    (ty : OptionType) (tolerance : ℝ) :
    ∀ (n : ℕ) (lo hi : ℝ), 0.001 ≤ lo → lo ≤ hi → hi ≤ 5 →
      0.001 ≤ bisectLoop N market_price S K T r ty tolerance n lo hi
        ∧ bisectLoop N market_price S K T r ty tolerance n lo hi ≤ 5 := by
  intro n
  induction n with
  | zero =>
    intro lo hi h1 h2 h3
    unfold bisectLoop
    constructor <;> [linarith; linarith]
  | succ k ih =>
    intro lo hi h1 h2 h3
    simp only [bisectLoop]
    split_ifs with hd hmkt
    · constructor <;> [linarith; linarith]
    · exact ih lo ((lo + hi) / 2) h1 (by linarith) (by linarith)
    · exact ih ((lo + hi) / 2) hi (by linarith) (by linarith) h3

/-- Claim C4: for T > 0 the bisection implied-volatility solver returns none
if and only if the market price is outside the interval spanned by the
Black-Scholes prices at the bracket endpoints sigma = 0.001 and sigma = 5.0;
any returned value lies in [0.001, 5.0], and exhausting the iteration budget
still returns the midpoint of the final bracket, never none. -/
theorem bisection_none_iff_outside_bracket (N : ℝ → ℝ)
    (market_price S K T r : ℝ) (ty : OptionType)
    (tolerance : ℝ) (max_iterations : ℕ) (hT : 0 < T) :
    (implied_volatility_bisection N market_price S K T r ty tolerance
          max_iterations = none ↔
        market_price < (black_scholes_price N S K T r 0.001 ty).price
          ∨ (black_scholes_price N S K T r 5 ty).price < market_price)
    ∧ ∀ v, implied_volatility_bisection N market_price S K T r ty tolerance
          max_iterations = some v → 0.001 ≤ v ∧ v ≤ 5 := by
  have hT' : ¬ T ≤ 0 := not_le.mpr hT
  unfold implied_volatility_bisection
  by_cases hout : market_price < (black_scholes_price N S K T r 0.001 ty).price
      ∨ (black_scholes_price N S K T r 5 ty).price < market_price
  · simp only [if_neg hT', if_pos hout]
    refine ⟨⟨fun _ => hout, fun _ => trivial⟩, ?_⟩
    intro v hv
    exact absurd hv (by simp)
  · simp only [if_neg hT', if_neg hout]
    refine ⟨⟨fun h => absurd h (by simp), fun h => absurd h hout⟩, ?_⟩
    intro v hv
    have hv' : bisectLoop N market_price S K T r ty tolerance max_iterations 0.001 5 = v :=
      Option.some.injEq _ _ ▸ hv.symm ▸ rfl
    rw [← hv']
    exact bisectLoop_mem N market_price S K T r ty tolerance max_iterations 0.001 5
      (le_refl _) (by norm_num) (le_refl _)

/-- Witness for the bisection characterization at T = 1 with the default
tolerance and iteration cap. -/
theorem bisection_none_iff_outside_bracket_witness :
    (implied_volatility_bisection normCdf 1 100 100 1 0 .call 1e-6 100 = none ↔
        (1 : ℝ) < (black_scholes_price normCdf 100 100 1 0 0.001 .call).price
          ∨ (black_scholes_price normCdf 100 100 1 0 5 .call).price < 1)
      ∧ ∀ v, implied_volatility_bisection normCdf 1 100 100 1 0 .call 1e-6 100
          = some v → 0.001 ≤ v ∧ v ≤ 5 :=
  bisection_none_iff_outside_bracket normCdf 1 100 100 1 0 .call 1e-6 100 (by norm_num)

theorem round_mono_of_le {x y : ℝ} (h : x ≤ y) : round x ≤ round y := by
  rw [round_eq, round_eq]
  exact Int.floor_mono (by linarith)

theorem round6_int_le {n : ℤ} {x : ℝ} (h : (n : ℝ) ≤ x) : (n : ℝ) ≤ round6 x := by
  unfold round6
  have h1 : round ((n : ℝ) * 1000000) ≤ round (x * 1000000) :=
    round_mono_of_le (by nlinarith)
  have h2 : round ((n : ℝ) * 1000000) = n * 1000000 := by
    rw [show ((n : ℝ) * 1000000) = ((n * 1000000 : ℤ) : ℝ) by push_cast; ring]
    exact round_intCast _
  rw [h2] at h1
  rw [le_div_iff (by norm_num : (0:ℝ) < 1000000)]
  calc (n : ℝ) * 1000000 = ((n * 1000000 : ℤ) : ℝ) := by push_cast; ring
    _ ≤ ((round (x * 1000000) : ℤ) : ℝ) := by exact_mod_cast h1

theorem round6_le_int {n : ℤ} {x : ℝ} (h : x ≤ (n : ℝ)) : round6 x ≤ (n : ℝ) := by
  unfold round6
  have h1 : round (x * 1000000) ≤ round ((n : ℝ) * 1000000) :=
    round_mono_of_le (by nlinarith)
  have h2 : round ((n : ℝ) * 1000000) = n * 1000000 := by
    rw [show ((n : ℝ) * 1000000) = ((n * 1000000 : ℤ) : ℝ) by push_cast; ring]
    exact round_intCast _
  rw [h2] at h1
  rw [div_le_iff (by norm_num : (0:ℝ) < 1000000)]
  calc ((round (x * 1000000) : ℤ) : ℝ) ≤ ((n * 1000000 : ℤ) : ℝ) := by exact_mod_cast h1
    _ = (n : ℝ) * 1000000 := by push_cast; ring

theorem gauss_fun_eq :
    (fun t : ℝ => Real.exp (-t ^ 2 / 2)) = fun t : ℝ => Real.exp (-(1 / 2) * t ^ 2) := by
  funext t
  ring_nf

theorem gauss_integrable :
    MeasureTheory.Integrable (fun t : ℝ => Real.exp (-t ^ 2 / 2)) := by
  rw [gauss_fun_eq]
  exact integrable_exp_neg_mul_sq (by norm_num)

theorem gauss_total :
    (∫ t : ℝ, Real.exp (-t ^ 2 / 2)) = Real.sqrt (2 * Real.pi) := by
  rw [gauss_fun_eq]
  rw [integral_gaussian]
  rw [show Real.pi / (1 / 2) = 2 * Real.pi by ring]

theorem sqrt_two_pi_pos : 0 < Real.sqrt (2 * Real.pi) :=
  Real.sqrt_pos.mpr (by positivity)

theorem normCdf_nonneg (x : ℝ) : 0 ≤ normCdf x :=
  div_nonneg
    (MeasureTheory.setIntegral_nonneg measurableSet_Iic
      (fun t _ => (Real.exp_pos (-t ^ 2 / 2)).le))
    (Real.sqrt_nonneg _)

theorem normCdf_le_one (x : ℝ) : normCdf x ≤ 1 := by
  unfold normCdf
  rw [div_le_one sqrt_two_pi_pos]
  calc (∫ t in Set.Iic x, Real.exp (-t ^ 2 / 2))
      ≤ ∫ t : ℝ, Real.exp (-t ^ 2 / 2) :=
        MeasureTheory.setIntegral_le_integral gauss_integrable
          (Filter.Eventually.of_forall fun t => (Real.exp_pos (-t ^ 2 / 2)).le)
    _ = Real.sqrt (2 * Real.pi) := gauss_total

theorem normCdf_sym (x : ℝ) : normCdf x + normCdf (-x) = 1 := by
  unfold normCdf
  rw [div_add_div_same, div_eq_one_iff_eq (ne_of_gt sqrt_two_pi_pos)]
  have hfun : (fun t : ℝ => Real.exp (-t ^ 2 / 2))
      = fun t : ℝ => Real.exp (-(-t) ^ 2 / 2) := by
    funext t
    ring_nf
  have h1 : (∫ t in Set.Iic (-x), Real.exp (-t ^ 2 / 2))
      = ∫ t in Set.Ioi x, Real.exp (-t ^ 2 / 2) := by
    have hstep := integral_comp_neg_Iic (-x)
      (fun t : ℝ => Real.exp (-t ^ 2 / 2))
    rw [neg_neg] at hstep
    rw [← hstep, hfun]
  rw [h1]
  rw [intervalIntegral.integral_Iic_add_Ioi gauss_integrable.integrableOn
    gauss_integrable.integrableOn]
  exact gauss_total

theorem normCdf_le_exp_div (y : ℝ) (hy : y ≤ -2) :
    normCdf y ≤ Real.exp y / Real.sqrt (2 * Real.pi) := by
  unfold normCdf
  rw [div_le_div_iff_of_pos_right sqrt_two_pi_pos]
  calc (∫ t in Set.Iic y, Real.exp (-t ^ 2 / 2))
      ≤ ∫ t in Set.Iic y, Real.exp t := by
        apply MeasureTheory.setIntegral_mono_on gauss_integrable.integrableOn
          (integrableOn_exp_Iic y) measurableSet_Iic
        intro t ht
        have ht' : t ≤ -2 := le_trans ht hy
        apply Real.exp_le_exp.mpr
        nlinarith
    _ = Real.exp y := integral_exp_Iic y

theorem normCdf_tendsto_atBot : Filter.Tendsto normCdf Filter.atBot (nhds 0) := by
  have hupper : Filter.Tendsto (fun y : ℝ => Real.exp y / Real.sqrt (2 * Real.pi))
      Filter.atBot (nhds 0) := by
    have := Real.tendsto_exp_atBot.div_const (Real.sqrt (2 * Real.pi))
    simpa using this
  apply tendsto_of_tendsto_of_tendsto_of_le_of_le' tendsto_const_nhds hupper
  · exact Filter.Eventually.of_forall normCdf_nonneg
  · exact Filter.eventually_atBot.mpr ⟨-2, fun y hy => normCdf_le_exp_div y hy⟩

theorem normCdf_hasDerivAt (x : ℝ) : HasDerivAt normCdf (normPdf x) x := by
  have hcont : Continuous (fun t : ℝ => Real.exp (-t ^ 2 / 2)) := by
    apply Real.continuous_exp.comp
    continuity
  have key : normCdf = fun y =>
      ((∫ t in Set.Iic (0 : ℝ), Real.exp (-t ^ 2 / 2))
        + ∫ t in (0 : ℝ)..y, Real.exp (-t ^ 2 / 2)) / Real.sqrt (2 * Real.pi) := by
    funext y
    unfold normCdf
    congr 1
    have := intervalIntegral.integral_Iic_sub_Iic
      (gauss_integrable.integrableOn (s := Set.Iic (0 : ℝ)))
      (gauss_integrable.integrableOn (s := Set.Iic y))
    linarith
  rw [key]
  have h1 := (hcont.integral_hasStrictDerivAt 0 x).hasDerivAt
  exact (h1.const_add _).div_const _

theorem exp_mul_normPdf (u s : ℝ) (hs : 0 < s) :
    Real.exp u * normPdf (u / s + s / 2) = normPdf (u / s - s / 2) := by
  unfold normPdf
  rw [mul_div_assoc' (Real.exp u), ← Real.exp_add]
  congr 1
  field_simp
  ring

theorem normCdf_gauss_deriv (s : ℝ) (hs : 0 < s) (u : ℝ) :
    HasDerivAt (fun v : ℝ => Real.exp v * normCdf (v / s + s / 2)
        - normCdf (v / s - s / 2))
      (Real.exp u * normCdf (u / s + s / 2)) u := by
  have hd1 : HasDerivAt (fun v : ℝ => v / s + s / 2) (1 / s) u := by
    simpa using ((hasDerivAt_id u).div_const s).add_const (s / 2)
  have hd2 : HasDerivAt (fun v : ℝ => v / s - s / 2) (1 / s) u := by
    simpa using ((hasDerivAt_id u).div_const s).sub_const (s / 2)
  have hc1 : HasDerivAt (fun v : ℝ => normCdf (v / s + s / 2))
      (normPdf (u / s + s / 2) * (1 / s)) u :=
    (normCdf_hasDerivAt (u / s + s / 2)).comp u hd1
  have hc2 : HasDerivAt (fun v : ℝ => normCdf (v / s - s / 2))
      (normPdf (u / s - s / 2) * (1 / s)) u :=
    (normCdf_hasDerivAt (u / s - s / 2)).comp u hd2
  have hmul : HasDerivAt (fun v : ℝ => Real.exp v * normCdf (v / s + s / 2))
      (Real.exp u * normCdf (u / s + s / 2)
        + Real.exp u * (normPdf (u / s + s / 2) * (1 / s))) u :=
    (Real.hasDerivAt_exp u).mul hc1
  have hsub := hmul.sub hc2
  have hkey : Real.exp u * normCdf (u / s + s / 2)
        + Real.exp u * (normPdf (u / s + s / 2) * (1 / s))
        - normPdf (u / s - s / 2) * (1 / s)
      = Real.exp u * normCdf (u / s + s / 2) := by
    rw [show Real.exp u * (normPdf (u / s + s / 2) * (1 / s))
        = Real.exp u * normPdf (u / s + s / 2) * (1 / s) by ring]
    rw [exp_mul_normPdf u s hs]
    ring
  rw [hkey] at hsub
  exact hsub

/-- The Gaussian inequality behind nonnegativity of the raw Black-Scholes
values: the true standard normal CDF satisfies the hypothesis of the parity
theorem. -/
theorem normCdf_gauss_ineq (m s : ℝ) (hs : 0 < s) :
    normCdf (m / s - s / 2) ≤ Real.exp m * normCdf (m / s + s / 2) := by
  have hderiv := normCdf_gauss_deriv s hs
  have hmono : Monotone (fun v : ℝ => Real.exp v * normCdf (v / s + s / 2)
      - normCdf (v / s - s / 2)) := by
    apply monotone_of_deriv_nonneg
    · exact fun u => (hderiv u).differentiableAt
    · intro u
      rw [(hderiv u).deriv]
      exact mul_nonneg (Real.exp_pos u).le (normCdf_nonneg _)
  have hlim : Filter.Tendsto (fun v : ℝ => Real.exp v * normCdf (v / s + s / 2)
      - normCdf (v / s - s / 2)) Filter.atBot (nhds 0) := by
    have h1 : Filter.Tendsto (fun v : ℝ => Real.exp v * normCdf (v / s + s / 2))
        Filter.atBot (nhds 0) := by
      apply tendsto_of_tendsto_of_tendsto_of_le_of_le tendsto_const_nhds
        Real.tendsto_exp_atBot
      · intro v
        exact mul_nonneg (Real.exp_pos v).le (normCdf_nonneg _)
      · intro v
        exact mul_le_of_le_one_right (Real.exp_pos v).le (normCdf_le_one _)
    have harg : Filter.Tendsto (fun v : ℝ => v / s - s / 2) Filter.atBot Filter.atBot := by
      apply Filter.tendsto_atBot_add_const_right
      exact Filter.tendsto_id.atBot_div_const hs
    have h2 : Filter.Tendsto (fun v : ℝ => normCdf (v / s - s / 2))
        Filter.atBot (nhds 0) := by
      have := normCdf_tendsto_atBot.comp harg
      simpa [Function.comp] using this
    have := h1.sub h2
    simpa using this
  have h0 : 0 ≤ Real.exp m * normCdf (m / s + s / 2) - normCdf (m / s - s / 2) := by
    apply le_of_tendsto hlim
    exact Filter.eventually_atBot.mpr ⟨m, fun u hu => hmono hu⟩
  linarith

/-- Claim C2: put-call parity for the Pricing Kernel with the standard
normal CDF.  For S, K, T, sigma all positive, call price minus put price
equals S - K·e^(-rT) on the scalar path and on every element of the
vectorized path, despite the final floor of the price at 0 (the floor never
binds because the raw Black-Scholes values are nonnegative for the normal
CDF). -/
theorem put_call_parity (S K T r sigma : ℝ)
    (hS : 0 < S) (hK : 0 < K) (hT : 0 < T) (hsig : 0 < sigma) :
    (black_scholes_price normCdf S K T r sigma .call).price
        - (black_scholes_price normCdf S K T r sigma .put).price
      = S - K * Real.exp (-r * T)
    ∧ ∀ (Ss Ts sigs : List ℝ) (i : ℕ),
        i < Ss.length → i < Ts.length → i < sigs.length →
        Ss.getD i 0 = S → Ts.getD i 0 = T → sigs.getD i 0 = sigma →
        (black_scholes_vectorized normCdf Ss K Ts r sigs .call).getD i 0
            - (black_scholes_vectorized normCdf Ss K Ts r sigs .put).getD i 0
          = S - K * Real.exp (-r * T) :=
  put_call_parity_of_cdf normCdf normCdf_sym normCdf_gauss_ineq
    S K T r sigma hS hK hT hsig

/-- Witness for the parity theorem at S = 100, K = 100, T = 1, r = 0,
sigma = 1/2. -/
theorem put_call_parity_witness :
    (black_scholes_price normCdf 100 100 1 0 (1 / 2) .call).price
        - (black_scholes_price normCdf 100 100 1 0 (1 / 2) .put).price
      = 100 - 100 * Real.exp (-0 * 1) :=
  (put_call_parity 100 100 1 0 (1 / 2)
    (by norm_num) (by norm_num) (by norm_num) (by norm_num)).1

theorem normPdf_nonneg (x : ℝ) : 0 ≤ normPdf x :=
  div_nonneg (Real.exp_pos (-x ^ 2 / 2)).le (Real.sqrt_nonneg _)

/-- Greeks sanity bounds over any CDF mapping into [0, 1] and any
nonnegative PDF. -/
theorem greeks_sanity_of_cdf (N npdf : ℝ → ℝ)
    (hN0 : ∀ x, 0 ≤ N x) (hN1 : ∀ x, N x ≤ 1) (hpdf : ∀ x, 0 ≤ npdf x)
    (S K T r sigma : ℝ) (hS : 0 < S) (_hK : 0 < K) (hT : 0 < T) (hsig : 0 < sigma) :
    (0 ≤ (calculate_greeks N npdf S K T r sigma .call).delta
        ∧ (calculate_greeks N npdf S K T r sigma .call).delta ≤ 1)
    ∧ (-1 ≤ (calculate_greeks N npdf S K T r sigma .put).delta
        ∧ (calculate_greeks N npdf S K T r sigma .put).delta ≤ 0)
    ∧ (∀ ty, 0 ≤ (calculate_greeks N npdf S K T r sigma ty).gamma
        ∧ 0 ≤ (calculate_greeks N npdf S K T r sigma ty).vega) := by
  have hT' : ¬ T ≤ 0 := not_le.mpr hT
  have hsig' : ¬ sigma ≤ 0 := not_le.mpr hsig
  have hsqrt : 0 < Real.sqrt T := Real.sqrt_pos.mpr hT
  have hgamma : ∀ d : ℝ, 0 ≤ npdf d / (S * sigma * Real.sqrt T) := by
    intro d
    exact div_nonneg (hpdf d) (by positivity)
  have hvega : ∀ d : ℝ, 0 ≤ S * npdf d * Real.sqrt T / 100 := by
    intro d
    have := hpdf d
    positivity
  have h0 : ((0 : ℤ) : ℝ) = (0 : ℝ) := by norm_num
  have h1 : ((1 : ℤ) : ℝ) = (1 : ℝ) := by norm_num
  have hm1 : ((-1 : ℤ) : ℝ) = (-1 : ℝ) := by norm_num
  refine ⟨⟨?_, ?_⟩, ⟨?_, ?_⟩, ?_⟩
  · simp only [calculate_greeks, if_neg hT', if_neg hsig']
    rw [← h0]
    exact round6_int_le (by rw [h0]; exact hN0 _)
  · simp only [calculate_greeks, if_neg hT', if_neg hsig']
    rw [← h1]
    exact round6_le_int (by rw [h1]; exact hN1 _)
  · simp only [calculate_greeks, if_neg hT', if_neg hsig']
    rw [← hm1]
    exact round6_int_le (by rw [hm1]; have := hN0 ((Real.log (S / K) + (r + 0.5 * sigma ^ 2) * T) / (sigma * Real.sqrt T)); linarith)
  · simp only [calculate_greeks, if_neg hT', if_neg hsig']
    rw [← h0]
    exact round6_le_int (by rw [h0]; have := hN1 ((Real.log (S / K) + (r + 0.5 * sigma ^ 2) * T) / (sigma * Real.sqrt T)); linarith)
  · intro ty
    cases ty <;>
      simp only [calculate_greeks, if_neg hT', if_neg hsig'] <;>
      constructor <;>
      [skip; skip; skip; skip] <;>
      first
        | (rw [← h0]; exact round6_int_le (by rw [h0]; exact hgamma _))
        | (rw [← h0]; exact round6_int_le (by rw [h0]; exact hvega _))

/-- Claim C8: Greeks sanity bounds for the standard normal CDF and PDF.
For S, K, T, sigma all positive, the delta computed by calculate_greeks
lies in [0, 1] for calls and in [-1, 0] for puts, and gamma and vega are
nonnegative for both option types, the six-decimal rounding of the scalar
path included. -/
theorem greeks_sanity_bounds (S K T r sigma : ℝ)
    (hS : 0 < S) (hK : 0 < K) (hT : 0 < T) (hsig : 0 < sigma) :
    (0 ≤ (calculate_greeks normCdf normPdf S K T r sigma .call).delta
        ∧ (calculate_greeks normCdf normPdf S K T r sigma .call).delta ≤ 1)
    ∧ (-1 ≤ (calculate_greeks normCdf normPdf S K T r sigma .put).delta
        ∧ (calculate_greeks normCdf normPdf S K T r sigma .put).delta ≤ 0)
    ∧ (∀ ty, 0 ≤ (calculate_greeks normCdf normPdf S K T r sigma ty).gamma
        ∧ 0 ≤ (calculate_greeks normCdf normPdf S K T r sigma ty).vega) :=
  greeks_sanity_of_cdf normCdf normPdf normCdf_nonneg normCdf_le_one
    normPdf_nonneg S K T r sigma hS hK hT hsig

/-- Witness for the Greeks sanity theorem at S = K = T = sigma = 1, r = 0. -/
theorem greeks_sanity_bounds_witness :
    (0 ≤ (calculate_greeks normCdf normPdf 1 1 1 0 1 .call).delta
        ∧ (calculate_greeks normCdf normPdf 1 1 1 0 1 .call).delta ≤ 1)
    ∧ (-1 ≤ (calculate_greeks normCdf normPdf 1 1 1 0 1 .put).delta
        ∧ (calculate_greeks normCdf normPdf 1 1 1 0 1 .put).delta ≤ 0)
    ∧ (∀ ty, 0 ≤ (calculate_greeks normCdf normPdf 1 1 1 0 1 ty).gamma
        ∧ 0 ≤ (calculate_greeks normCdf normPdf 1 1 1 0 1 ty).vega) :=
  greeks_sanity_bounds 1 1 1 0 1 (by norm_num) (by norm_num) (by norm_num) (by norm_num)

/-- Counterexample to claim C6: with entry_stock_price omitted, the covered
call's breakeven is the empty list and its max loss is the infinity
sentinel, and the protective put and collar breakevens are empty as well —
degenerate no-answer results rather than values from the documented
approximation. -/
theorem stock_leg_omitted_counterexample :
    CoveredCall.get_breakeven [100] [2] none = []
    ∧ CoveredCall.get_max_loss [100] [2] none = PyFloat.inf
    ∧ ProtectivePut.get_breakeven [100] [2] none = []
    ∧ Collar.get_breakeven [95, 105] [2, 1] none = [] :=
  ⟨rfl, rfl, rfl, rfl⟩

/-- Claim C6 (amended): with entry_stock_price omitted, only some of the
stock-leg strategy functions fall back to the fixed-percentage
approximation (covered-call max profit, collar max profit and max loss,
protective-put max loss); every get_breakeven returns the empty list, the
covered call's max loss is the infinity sentinel, and the protective put's
max profit is unbounded by design. -/
theorem stock_leg_omitted_behavior (k p k2 p2 : ℝ) :
    CoveredCall.get_max_profit [k] [p] none = PyFloat.val (k * 0.05 + p)
    ∧ CoveredCall.get_max_loss [k] [p] none = PyFloat.inf
    ∧ CoveredCall.get_breakeven [k] [p] none = []
    ∧ ProtectivePut.get_max_profit [k] [p] none = PyFloat.inf
    ∧ ProtectivePut.get_max_loss [k] [p] none = PyFloat.val p
    ∧ ProtectivePut.get_breakeven [k] [p] none = []
    ∧ Collar.get_max_profit [k, k2] [p, p2] none
        = PyFloat.val (k2 - k2 * 0.95 - (p - p2))
    ∧ Collar.get_max_loss [k, k2] [p, p2] none
        = PyFloat.val (k * 1.05 - k + (p - p2))
    ∧ Collar.get_breakeven [k, k2] [p, p2] none = [] :=
  ⟨rfl, rfl, rfl, rfl, rfl, rfl, rfl, rfl, rfl⟩

/-- Claim C7: the first month's portfolio return is defined as 0, so the
first point of the equity curve equals the initial capital exactly, for any
nonempty multi-asset monthly price series; and two equal-weighted assets
with monthly returns 0%, +10%, -5% on capital 100000 yield the equity curve
100000, 110000, 104500. -/
theorem portfolio_first_point_equals_capital :
    (∀ (assets : List (List ℝ)) (weights : List ℝ) (capital : ℝ),
      assets ≠ [] → (∀ a ∈ assets, a ≠ []) →
      (backtest_equity_curve assets weights capital).head? = some capital)
    ∧ backtest_equity_curve [[100, 110, 104.5], [100, 110, 104.5]] [0.5, 0.5] 100000
        = [100000, 110000, 104500] := by
  constructor
  · intro assets weights capital hne hall
    obtain ⟨a0, rest, rfl⟩ := List.exists_cons_of_ne_nil hne
    obtain ⟨p0, t0, rfl⟩ := List.exists_cons_of_ne_nil (hall _ (List.mem_cons_self _ _))
    unfold backtest_equity_curve portfolio_returns
    simp only [List.map_cons, pct_change_f0, List.headD_cons, List.length_cons,
      List.range_succ_eq_map, List.map_cons]
    have hzero :
        (((((0 : ℝ) :: pct_change_tail p0 t0) :: rest.map pct_change_f0).zip weights).map
          (fun aw => aw.1.getD 0 0 * aw.2)).sum = 0 := by
      apply List.sum_eq_zero
      intro x hx
      obtain ⟨pair, hpair, hxeq⟩ := List.mem_map.mp hx
      have hmem1 : pair.1 ∈ ((0 : ℝ) :: pct_change_tail p0 t0) :: rest.map pct_change_f0 :=
        (List.mem_zip hpair).1
      rcases List.mem_cons.mp hmem1 with h | h
      · rw [← hxeq, h]
        simp
      · obtain ⟨orig, horig, hform⟩ := List.mem_map.mp h
        have hone : orig ≠ [] := hall orig (List.mem_cons_of_mem _ horig)
        obtain ⟨q0, tq, rfl⟩ := List.exists_cons_of_ne_nil hone
        rw [← hxeq, ← hform]
        simp [pct_change_f0]
    rw [hzero]
    simp [cumprod_scaled]
  · norm_num [backtest_equity_curve, pct_change_f0, pct_change_tail,
      portfolio_returns, cumprod_scaled, List.range_succ, List.sum_cons]

/-- Witness for the portfolio first-point theorem at the concrete
two-asset, equal-weight example. -/
theorem portfolio_first_point_equals_capital_witness :
    (backtest_equity_curve [[100, 110, 104.5], [100, 110, 104.5]] [0.5, 0.5]
      100000).head? = some 100000 :=
  portfolio_first_point_equals_capital.1
    [[100, 110, 104.5], [100, 110, 104.5]] [0.5, 0.5] 100000
    (by simp) (by intro a ha; fin_cases ha <;> simp)

/-- Claim C9: the weight-sum validation of the backtest endpoint accepts a
request (does not raise the weight-sum error, and hands the request to the
backtest computation) iff the sum of the weights lies in [0.99, 1.01]; on
rejection the error is produced identically for every possible downstream
computation, so no backtest computation is consulted and no partial result
exists; in particular weight sums 0.995 and 1.005 are accepted while 0.95
and 1.05 are rejected. -/
theorem weight_sum_validation {α : Type} (req : BacktestRequest)
    (compute : BacktestRequest → α)
    (hlen : req.tickers.length = req.weights.length) :
    (run_backtest_validated req compute = Except.error BacktestError.weight_sum
        ↔ ¬ (0.99 ≤ req.weights.sum ∧ req.weights.sum ≤ 1.01))
    ∧ ((0.99 ≤ req.weights.sum ∧ req.weights.sum ≤ 1.01) →
        run_backtest_validated req compute = Except.ok (compute req))
    ∧ (¬ (0.99 ≤ req.weights.sum ∧ req.weights.sum ≤ 1.01) →
        ∀ (compute2 : BacktestRequest → α),
          run_backtest_validated req compute = run_backtest_validated req compute2)
    ∧ (∀ (c : BacktestRequest → α),
        run_backtest_validated ⟨[0], [0.995]⟩ c = Except.ok (c ⟨[0], [0.995]⟩))
    ∧ (∀ (c : BacktestRequest → α),
        run_backtest_validated ⟨[0], [1.005]⟩ c = Except.ok (c ⟨[0], [1.005]⟩))
    ∧ (∀ (c : BacktestRequest → α),
        run_backtest_validated ⟨[0], [0.95]⟩ c = Except.error BacktestError.weight_sum)
    ∧ (∀ (c : BacktestRequest → α),
        run_backtest_validated ⟨[0], [1.05]⟩ c = Except.error BacktestError.weight_sum) := by
  have hlen' : ¬ req.tickers.length ≠ req.weights.length := by simp [hlen]
  refine ⟨?_, ?_, ?_, ?_, ?_, ?_, ?_⟩
  · unfold run_backtest_validated
    rw [if_neg hlen']
    by_cases hw : 0.99 ≤ req.weights.sum ∧ req.weights.sum ≤ 1.01
    · simp [hw]
    · simp [hw]
  · intro hw
    unfold run_backtest_validated
    rw [if_neg hlen', if_neg (by simpa using hw)]
  · intro hw compute2
    unfold run_backtest_validated
    rw [if_neg hlen', if_neg hlen', if_pos (by simpa using hw), if_pos (by simpa using hw)]
  · intro c
    unfold run_backtest_validated
    norm_num
  · intro c
    unfold run_backtest_validated
    norm_num
  · intro c
    unfold run_backtest_validated
    norm_num
  · intro c
    unfold run_backtest_validated
    norm_num

/-- Witness for the weight-sum validation theorem: a request with one
ticker and weight 0.995 satisfies the count precondition and is accepted. -/
theorem weight_sum_validation_witness :
    run_backtest_validated ⟨[0], [(0.995 : ℝ)]⟩ (fun _ => (0 : ℕ))
        = Except.error BacktestError.weight_sum
      ↔ ¬ ((0.99 : ℝ) ≤ List.sum [(0.995 : ℝ)] ∧ List.sum [(0.995 : ℝ)] ≤ 1.01) :=
  (weight_sum_validation ⟨[0], [(0.995 : ℝ)]⟩ (fun _ => (0 : ℕ)) rfl).1

theorem ffillVol_length : ∀ (l : List (Option ℝ)) (last : Option ℝ),
    (ffillVol last l).length = l.length := by
  intro l
  induction l with
  | nil => intro last; rfl
  | cons h t ih =>
    intro last
    cases h with
    | none => simp [ffillVol, ih]
    | some v => simp [ffillVol, ih]

theorem bfillVol_length (l : List (Option ℝ)) : (bfillVol l).length = l.length := by
  unfold bfillVol
  rw [List.length_reverse, ffillVol_length, List.length_reverse]

theorem prepare_volatility_length (cfg : OptionsBacktestConfig)
    (vol : List (Option ℝ)) : (prepare_volatility cfg vol).length = vol.length := by
  unfold prepare_volatility
  have h1 : (bfillVol (ffillVol none vol)).length = vol.length := by
    rw [bfillVol_length, ffillVol_length]
  rcases hm : cfg.volatility_model with _ | _ <;>
    rcases hf : cfg.fixed_volatility with _ | f <;>
    simp only [] <;>
    split_ifs <;>
    simp [h1]

theorem simulate_days_no_expire (N : ℝ → ℝ) (cfg : OptionsBacktestConfig)
    (sdef : StrategyDefinition) (strikes eprem : List ℝ) (eprice : ℝ) :
    ∀ (days : List (ℝ × ℝ)) (idx : ℕ),
      idx + days.length ≤ cfg.days_to_expiration →
      (simulate_days N cfg sdef strikes eprem eprice idx days).1.length = days.length
      ∧ (simulate_days N cfg sdef strikes eprem eprice idx days).2 = none := by
  intro days
  induction days with
  | nil => intro idx _; exact ⟨rfl, rfl⟩
  | cons pv rest ih =>
    intro idx h
    obtain ⟨price, vol⟩ := pv
    rw [List.length_cons] at h
    have hdte : cfg.days_to_expiration - idx ≠ 0 := by omega
    have hrec := ih (idx + 1) (by omega)
    simp only [simulate_days, if_neg hdte, List.length_cons]
    exact ⟨by rw [hrec.1], hrec.2⟩

theorem simulate_days_expire (N : ℝ → ℝ) (cfg : OptionsBacktestConfig)
    (sdef : StrategyDefinition) (strikes eprem : List ℝ) (eprice : ℝ) :
    ∀ (days : List (ℝ × ℝ)) (idx : ℕ),
      idx + days.length = cfg.days_to_expiration + 1 →
      idx ≤ cfg.days_to_expiration →
      (simulate_days N cfg sdef strikes eprem eprice idx days).1.length = days.length
      ∧ ∃ t, (simulate_days N cfg sdef strikes eprem eprice idx days).2 = some t
          ∧ t.action = TradeAction.EXPIRE := by
  intro days
  induction days with
  | nil =>
    intro idx h hle
    rw [List.length_nil] at h
    omega
  | cons pv rest ih =>
    intro idx h hle
    obtain ⟨price, vol⟩ := pv
    rw [List.length_cons] at h
    by_cases hdte : cfg.days_to_expiration - idx = 0
    · have hrest : rest.length = 0 := by omega
      simp only [simulate_days, if_pos hdte, List.length_cons,
        List.length_singleton, List.length_nil]
      exact ⟨by omega, _, rfl, rfl⟩
    · have hrec := ih (idx + 1) (by omega) (by omega)
      simp only [simulate_days, if_neg hdte, List.length_cons]
      exact ⟨by rw [hrec.1], hrec.2⟩

theorem options_run_no_expire (N : ℝ → ℝ) (cfg : OptionsBacktestConfig)
    (sdef : StrategyDefinition) (prices : List ℝ) (vol : List (Option ℝ))
    (hlen : prices.length ≤ cfg.days_to_expiration)
    (hv : vol.length = prices.length) :
    (options_backtest_run N cfg sdef prices vol).daily_pnl.length = prices.length
    ∧ (options_backtest_run N cfg sdef prices vol).trades.map TradeRecord.action
        = [TradeAction.OPEN] := by
  have hzlen : (prices.zip (prepare_volatility cfg vol)).length = prices.length := by
    rw [List.length_zip, prepare_volatility_length, hv, min_self]
  have h := simulate_days_no_expire N cfg sdef (run_strikes cfg sdef prices)
    (run_entry_premiums N cfg sdef prices vol) (prices.getD 0 0)
    (prices.zip (prepare_volatility cfg vol)) 0 (by omega)
  have h1 : (run_sim N cfg sdef prices vol).1.length = prices.length := by
    unfold run_sim
    rw [h.1, hzlen]
  have h2 : (run_sim N cfg sdef prices vol).2 = none := by
    unfold run_sim
    exact h.2
  constructor
  · exact h1
  · unfold options_backtest_run
    rw [h2]
    rfl

theorem options_run_expire (N : ℝ → ℝ) (cfg : OptionsBacktestConfig)
    (sdef : StrategyDefinition) (prices : List ℝ) (vol : List (Option ℝ))
    (hlen : prices.length = cfg.days_to_expiration + 1)
    (hv : vol.length = prices.length) :
    (options_backtest_run N cfg sdef prices vol).daily_pnl.length = prices.length
    ∧ (options_backtest_run N cfg sdef prices vol).trades.map TradeRecord.action
        = [TradeAction.OPEN, TradeAction.EXPIRE] := by
  have hzlen : (prices.zip (prepare_volatility cfg vol)).length = prices.length := by
    rw [List.length_zip, prepare_volatility_length, hv, min_self]
  have h := simulate_days_expire N cfg sdef (run_strikes cfg sdef prices)
    (run_entry_premiums N cfg sdef prices vol) (prices.getD 0 0)
    (prices.zip (prepare_volatility cfg vol)) 0 (by omega) (by omega)
  obtain ⟨hlen1, t, ht, hact⟩ := h
  have h1 : (run_sim N cfg sdef prices vol).1.length = prices.length := by
    unfold run_sim
    rw [hlen1, hzlen]
  have h2 : (run_sim N cfg sdef prices vol).2 = some t := by
    unfold run_sim
    exact ht
  constructor
  · exact h1
  · unfold options_backtest_run
    rw [h2]
    simp [hact]

/-- Claim C5 (amended): with days_to_expiration = 5 and a price series of
exactly 5 daily observations, the daily P&L series has exactly 5 entries
but the trade log holds only the OPEN event — no EXPIRE is logged, because
remaining DTE on the last recorded day is 1; the EXPIRE terminal event
requires days_to_expiration + 1 observations, so with a 6-day series the
P&L series has 6 entries and the trade log is [OPEN, EXPIRE]. -/
theorem options_simulator_termination (N : ℝ → ℝ)
    (cfg : OptionsBacktestConfig) (sdef : StrategyDefinition)
    (prices : List ℝ) (vol : List (Option ℝ))
    (hdte : cfg.days_to_expiration = 5) :
    (prices.length = 5 → vol.length = 5 →
      (options_backtest_run N cfg sdef prices vol).daily_pnl.length = 5
      ∧ (options_backtest_run N cfg sdef prices vol).trades.map TradeRecord.action
          = [TradeAction.OPEN])
    ∧ (prices.length = 6 → vol.length = 6 →
      (options_backtest_run N cfg sdef prices vol).daily_pnl.length = 6
      ∧ (options_backtest_run N cfg sdef prices vol).trades.map TradeRecord.action
          = [TradeAction.OPEN, TradeAction.EXPIRE]) := by
  constructor
  · intro hp hvl
    have h := options_run_no_expire N cfg sdef prices vol (by omega) (by omega)
    exact ⟨by rw [h.1, hp], h.2⟩
  · intro hp hvl
    have h := options_run_expire N cfg sdef prices vol (by omega) (by omega)
    exact ⟨by rw [h.1, hp], h.2⟩

/-- Witness for the amended termination theorem at a concrete 5-day run of
a long call with flat prices and volatility. -/
theorem options_simulator_termination_witness :
    (options_backtest_run (fun _ => (0 : ℝ)) sampleConfig5 longCallDef
        [100, 100, 100, 100, 100] (List.replicate 5 (some 0.2))).daily_pnl.length = 5
    ∧ (options_backtest_run (fun _ => (0 : ℝ)) sampleConfig5 longCallDef
        [100, 100, 100, 100, 100] (List.replicate 5 (some 0.2))).trades.map
          TradeRecord.action = [TradeAction.OPEN] :=
  (options_simulator_termination (fun _ => (0 : ℝ)) sampleConfig5 longCallDef
    [100, 100, 100, 100, 100] (List.replicate 5 (some 0.2)) rfl).1 rfl rfl

/-- Counterexample to claim C5 as stated: in a concrete 5-day,
days-to-expiration-5 run, the daily P&L series does have 5 entries, but the
last trade-log entry is the OPEN event, not an EXPIRE event. -/
theorem options_simulator_no_expire_counterexample :
    (options_backtest_run (fun _ => (0 : ℝ)) sampleConfig5 longCallDef
        [100, 101, 102, 103, 104] (List.replicate 5 (some 0.2))).daily_pnl.length = 5
    ∧ ¬ ((options_backtest_run (fun _ => (0 : ℝ)) sampleConfig5 longCallDef
        [100, 101, 102, 103, 104] (List.replicate 5 (some 0.2))).trades.map
          TradeRecord.action).getLast? = some TradeAction.EXPIRE := by
  have h := options_run_no_expire (fun _ => (0 : ℝ)) sampleConfig5 longCallDef
    [100, 101, 102, 103, 104] (List.replicate 5 (some 0.2))
    (by simp [sampleConfig5]) (by simp)
  refine ⟨h.1, ?_⟩
  rw [h.2]
  simp

theorem round2_cent_add (n : ℤ) (x : ℝ) :
    round2 ((n : ℝ) / 100 + x) = (n : ℝ) / 100 + round2 x := by
  unfold round2
  have h1 : ((n : ℝ) / 100 + x) * 100 = x * 100 + (n : ℝ) := by ring
  rw [h1]
  rw [show x * 100 + (n : ℝ) = x * 100 + ((n : ℤ) : ℝ) from rfl, round_add_int]
  push_cast
  ring

theorem simulate_days_record_values (N : ℝ → ℝ) (cfg : OptionsBacktestConfig)
    (sdef : StrategyDefinition) (strikes eprem : List ℝ) (eprice : ℝ) :
    ∀ (days : List (ℝ × ℝ)) (idx : ℕ)
      (rec : DailyPnlRecord),
      rec ∈ (simulate_days N cfg sdef strikes eprem eprice idx days).1 →
      ∃ (p t : ℝ) (d : ℕ),
        rec = ⟨round2 p, round2 (cfg.initial_capital + t), round2 t, d⟩ := by
  intro days
  induction days with
  | nil =>
    intro idx rec h
    simp [simulate_days] at h
  | cons pv rest ih =>
    intro idx rec h
    obtain ⟨price, vol⟩ := pv
    by_cases hdte : cfg.days_to_expiration - idx = 0
    · simp only [simulate_days, if_pos hdte, List.mem_singleton] at h
      exact ⟨price, _, _, h⟩
    · simp only [simulate_days, if_neg hdte, List.mem_cons] at h
      rcases h with h | h
      · exact ⟨price, _, _, h⟩
      · exact ih (idx + 1) rec h

/-- Claim C10 (amended): whenever the configured initial capital is a whole
number of cents, every recorded day of every options backtest run satisfies
position_value = initial_capital + daily_pnl — the daily_pnl field holds
the cumulative P&L since entry, not a day-over-day increment. -/
theorem position_value_eq_capital_plus_cumulative_pnl (N : ℝ → ℝ)
    (cfg : OptionsBacktestConfig) (sdef : StrategyDefinition)
    (prices : List ℝ) (vol : List (Option ℝ))
    (hcent : ∃ n : ℤ, cfg.initial_capital = (n : ℝ) / 100) :
    ∀ rec ∈ (options_backtest_run N cfg sdef prices vol).daily_pnl,
      rec.position_value = cfg.initial_capital + rec.daily_pnl := by
  obtain ⟨n, hn⟩ := hcent
  intro rec hrec
  have hrec' : rec ∈ (run_sim N cfg sdef prices vol).1 := hrec
  unfold run_sim at hrec'
  obtain ⟨p, t, d, rfl⟩ := simulate_days_record_values N cfg sdef
    (run_strikes cfg sdef prices) (run_entry_premiums N cfg sdef prices vol)
    (prices.getD 0 0) (prices.zip (prepare_volatility cfg vol)) 0 _ hrec'
  show round2 (cfg.initial_capital + t) = cfg.initial_capital + round2 t
  rw [hn, round2_cent_add]

/-- Witness for the amended position-value invariant at a concrete one-day
run of a long call with whole-cent initial capital 100000. -/
theorem position_value_eq_capital_plus_cumulative_pnl_witness :
    ((options_backtest_run (fun _ => (0 : ℝ)) sampleConfig5 longCallDef [100]
        [some 0.2]).daily_pnl.headD ⟨0, 0, 0, 0⟩).position_value
      = sampleConfig5.initial_capital
        + ((options_backtest_run (fun _ => (0 : ℝ)) sampleConfig5 longCallDef [100]
            [some 0.2]).daily_pnl.headD ⟨0, 0, 0, 0⟩).daily_pnl := by
  have hlen := (options_run_no_expire (fun _ => (0 : ℝ)) sampleConfig5 longCallDef
    [100] [some 0.2] (by simp [sampleConfig5]) (by simp)).1
  apply position_value_eq_capital_plus_cumulative_pnl (fun _ => (0 : ℝ))
    sampleConfig5 longCallDef [100] [some 0.2] ⟨10000000, by norm_num [sampleConfig5]⟩
  rcases hd : (options_backtest_run (fun _ => (0 : ℝ)) sampleConfig5 longCallDef [100]
      [some 0.2]).daily_pnl with _ | ⟨a, tail⟩
  · rw [hd] at hlen
    simp at hlen
  · simp

theorem prepare_vol_sample : prepare_volatility sampleConfig5c [some 0.2] = [0.2] := rfl

/-- Counterexample to claim C10 as stated: with the sub-cent initial
capital 100000.001, the day-0 record of a concrete one-day long-call run has
position_value round2(100000.001 + 0) = 100000, which differs from
initial_capital + daily_pnl = 100000.001 + 0. -/
theorem position_value_rounding_counterexample :
    ¬ (((options_backtest_run (fun _ => (0 : ℝ)) sampleConfig5c longCallDef [100]
        [some 0.2]).daily_pnl.headD ⟨0, 0, 0, 0⟩).position_value
      = sampleConfig5c.initial_capital
        + ((options_backtest_run (fun _ => (0 : ℝ)) sampleConfig5c longCallDef [100]
            [some 0.2]).daily_pnl.headD ⟨0, 0, 0, 0⟩).daily_pnl) := by
  intro h
  simp only [options_backtest_run, run_sim, run_strikes, run_entry_premiums,
    prepare_vol_sample] at h
  simp [simulate_days, calculate_current_premiums,
    entry_premiums, calculate_strikes, calculate_option_pnl, stock_leg_pnl,
    longCallDef, sampleConfig5c] at h
  norm_num [round2] at h
  have hr : round ((100000001 : ℝ) / 10) = 10000000 := by
    rw [round_eq]
    have hf : ⌊(100000001 : ℝ) / 10 + 1 / 2⌋ = 10000000 := by
      apply Int.floor_eq_iff.mpr
      constructor <;> norm_num
    rw [hf]
  rw [hr] at h
  norm_num at h
